import Mathlib

/-!
# Verification of the daily production scheduler of `src/App.js`

This file embeds the scheduling pipeline of the `ScheduleView` component
(the `scheduleData` and `aggregatedOverflow` memos, together with the data
records built by the surrounding forms) and proves the specified properties
about it.

Modelling conventions:
* JavaScript numbers are modelled as rationals (`ℚ`).
* A numeric field that may be `undefined`/unparsable (`parseFloat` yielding
  `NaN`) is an `Option ℚ`; `none` stands for the missing/unparsable case.
* A JavaScript object used as a string-keyed map (`machineTimelines`,
  the overflow aggregation) is an association list `List (String × α)`
  preserving insertion order, first binding wins on lookup, assignment to an
  existing key overwrites in place, assignment to a fresh key appends.
* `Array.prototype.sort` is stable (ECMAScript 2019); the descending sort by
  `profitPerMinute` is embedded as the stable insertion sort `rankTasks`.
-/

namespace LaserApp

/-- A machine record as created by `MachineLibrary.handleAddMachine`. -/
structure Machine where
  id : String
  name : String
deriving DecidableEq, Repr

/-- A catalog item as created by `ItemForm`/`handleSaveItem`. `buildTime`,
`price` and `cost` are `none` when the field is missing or unparsable
(`parseFloat` returns `NaN`). -/
structure CatalogItem where
  id : String
  name : String
  buildTime : Option ℚ
  price : Option ℚ
  cost : Option ℚ
  allowedMachines : List String
deriving DecidableEq, Repr

/-- An order as created by `DailyPlanner.handleAddOrder`. -/
structure Order where
  id : String
  itemId : String
  itemName : String
  quantity : Nat
deriving DecidableEq, Repr

/-- A one-unit production task produced by the task expander
(`scheduleData`, lines 526-540 of `src/App.js`). -/
structure Task where
  id : String
  name : String
  buildTime : ℚ
  profit : ℚ
  profitPerMinute : ℚ
  allowedMachines : List String
deriving DecidableEq, Repr

/-- A task placed on a machine timeline: the task record spread together
with its `startTime`/`endTime` (line 569 of `src/App.js`). -/
structure AssignedTask where
  task : Task
  startTime : ℚ
  endTime : ℚ
deriving DecidableEq, Repr

/-- The per-machine accumulator `{ tasks: [], currentTime: 0 }`. -/
structure Timeline where
  tasks : List AssignedTask
  currentTime : ℚ
deriving DecidableEq, Repr

/-- The settings record; `workHours` is `none` when absent or `NaN`. -/
structure Settings where
  workHours : Option ℚ
  workdayStartHour : Option ℚ
deriving DecidableEq, Repr

/-- The value returned by the `scheduleData` memo on the non-null path:
`{ schedule: machineTimelines, totalProfit, overflowTasks }`. -/
structure ScheduleResult where
  schedule : List (String × Timeline)
  totalProfit : ℚ
  overflowTasks : List Task
deriving DecidableEq, Repr

/-- Lookup in a string-keyed JavaScript object (`obj[key]`). -/
def objGet : List (String × Timeline) → String → Option Timeline
  | [], _ => none
  | (k, v) :: rest, key => if k = key then some v else objGet rest key

/-- Assignment in a string-keyed JavaScript object (`obj[key] = val`):
overwrite in place when the key exists, append otherwise. -/
def objSet : List (String × Timeline) → String → Timeline → List (String × Timeline)
  | [], key, val => [(key, val)]
  | (k, v) :: rest, key, val =>
    if k = key then (key, val) :: rest else (k, v) :: objSet rest key val

/-- `machines.reduce((acc, machine) => { acc[machine.name] = { tasks: [],
currentTime: 0 }; return acc; }, {})` (lines 544-547). -/
def initTimelines (machines : List Machine) : List (String × Timeline) :=
  machines.foldl (fun acc m => objSet acc m.name ⟨[], 0⟩) []

/-- The task expander for one order (lines 526-540): look the item up by id,
drop the order when the item is absent or its build time is falsy/≤ 0,
otherwise emit `quantity` one-unit tasks. `parseFloat(x) || 0` on price and
cost is `Option.getD 0`. -/
def expandOrder (items : List CatalogItem) (order : Order) : List Task :=
  match items.find? (fun i => i.id == order.itemId) with
  | none => []
  | some itemDetails =>
    match itemDetails.buildTime with
    | none => []
    | some bt =>
      if bt ≤ 0 then []
      else
        (List.range order.quantity).map (fun i =>
          { id := order.itemId ++ "-" ++ toString i
            name := order.itemName
            buildTime := bt
            profit := itemDetails.price.getD 0 - itemDetails.cost.getD 0
            profitPerMinute := (itemDetails.price.getD 0 - itemDetails.cost.getD 0) / bt
            allowedMachines := itemDetails.allowedMachines })

/-- `scheduleOrders.flatMap(order => ...)` over the whole order list. -/
def expandAll (items : List CatalogItem) : List Order → List Task
  | [] => []
  | o :: os => expandOrder items o ++ expandAll items os

/-- Stable insertion of a task into an already ranked list: the inserted
task precedes every later-arriving task of equal `profitPerMinute`. -/
def insertTask (t : Task) : List Task → List Task
  | [] => [t]
  | u :: us =>
    if u.profitPerMinute ≤ t.profitPerMinute then t :: u :: us
    else u :: insertTask t us

/-- `allTasks.sort((a, b) => b.profitPerMinute - a.profitPerMinute)`
(line 542): the stable descending sort by `profitPerMinute`. -/
def rankTasks : List Task → List Task
  | [] => []
  | t :: ts => insertTask t (rankTasks ts)

/-- The inner machine-selection loop (lines 553-565): scan the task's
`allowedMachines` in stored order, keeping the first machine in the pool
whose candidate finish time is strictly smaller than the best so far. -/
def selectBest (tls : List (String × Timeline)) (bt : ℚ) :
    List String → Option (String × ℚ) → Option (String × ℚ)
  | [], best => best
  | name :: rest, best =>
    match objGet tls name with
    | none => selectBest tls bt rest best
    | some tl =>
      match best with
      | none => selectBest tls bt rest (some (name, tl.currentTime + bt))
      | some (bestName, bestFinish) =>
        if tl.currentTime + bt < bestFinish then
          selectBest tls bt rest (some (name, tl.currentTime + bt))
        else selectBest tls bt rest (some (bestName, bestFinish))

/-- The allocator state threaded through the `for (const task of allTasks)`
loop: the timelines object, the running profit, and the overflow list. -/
structure SchedState where
  timelines : List (String × Timeline)
  totalProfit : ℚ
  overflowTasks : List Task
deriving DecidableEq, Repr

/-- One iteration of the allocator loop (lines 553-575). The guard
`if (bestMachine && earliestFinishTime <= totalWorkMinutes)` tests the name
for JavaScript truthiness, so a machine named `""` never receives a task.
The inner `none` branch is unreachable: `selectBest` only returns keys
present in the timelines object. -/
def allocStep (totalWorkMinutes : ℚ) (s : SchedState) (task : Task) : SchedState :=
  match selectBest s.timelines task.buildTime task.allowedMachines none with
  | some (bestMachine, earliestFinishTime) =>
    if bestMachine ≠ "" ∧ earliestFinishTime ≤ totalWorkMinutes then
      match objGet s.timelines bestMachine with
      | some tl =>
        { timelines := objSet s.timelines bestMachine
            { tasks := tl.tasks ++
                [{ task := task, startTime := tl.currentTime, endTime := earliestFinishTime }]
              currentTime := earliestFinishTime }
          totalProfit := s.totalProfit + task.profit
          overflowTasks := s.overflowTasks }
      | none => { s with overflowTasks := s.overflowTasks ++ [task] }
    else { s with overflowTasks := s.overflowTasks ++ [task] }
  | none => { s with overflowTasks := s.overflowTasks ++ [task] }

/-- `(settings.workHours || 8) * 60` (line 549): `||` replaces the falsy
values `undefined`, `NaN` (both `none`) and `0` by the default `8`. -/
def totalWorkMinutes (settings : Settings) : ℚ :=
  (match settings.workHours with
   | none => 8
   | some w => if w = 0 then 8 else w) * 60

/-- The allocator loop of lines 550-575: fold `allocStep` over the ranked
tasks, starting from fresh timelines, zero profit and no overflow. -/
def runAllocator (total : ℚ) (machines : List Machine) (tasks : List Task) : SchedState :=
  tasks.foldl (allocStep total)
    { timelines := initTimelines machines, totalProfit := 0, overflowTasks := [] }

/-- The scheduling pipeline of the `scheduleData` memo after its null guard
(lines 526-576): expand, rank, then run the greedy allocator. -/
def computeSchedule (orders : List Order) (items : List CatalogItem)
    (machines : List Machine) (settings : Settings) : ScheduleResult :=
  { schedule := (runAllocator (totalWorkMinutes settings) machines
      (rankTasks (expandAll items orders))).timelines
    totalProfit := (runAllocator (totalWorkMinutes settings) machines
      (rankTasks (expandAll items orders))).totalProfit
    overflowTasks := (runAllocator (totalWorkMinutes settings) machines
      (rankTasks (expandAll items orders))).overflowTasks }

/-- The full `scheduleData` memo (lines 521-577), including the guard that
returns `null` when there are no schedule orders, no items or no machines. -/
def scheduleData (scheduleOrders : Option (List Order)) (items : List CatalogItem)
    (machines : List Machine) (settings : Settings) : Option ScheduleResult :=
  match scheduleOrders with
  | none => none
  | some orders =>
    if items = [] ∨ machines = [] then none
    else some (computeSchedule orders items machines settings)

/-- Increment of `acc[task.name] = (acc[task.name] || 0) + 1` in the
overflow aggregation (lines 582-585), on a string-keyed count object. -/
def countIncr : List (String × Nat) → String → List (String × Nat)
  | [], key => [(key, 1)]
  | (k, v) :: rest, key =>
    if k = key then (key, v + 1) :: rest else (k, v) :: countIncr rest key

/-- The `aggregatedOverflow` memo (lines 579-590): group overflow tasks by
display name and sum their profit. -/
def aggregatedOverflow (sd : Option ScheduleResult) : List (String × Nat) × ℚ :=
  match sd with
  | none => ([], 0)
  | some r =>
    (r.overflowTasks.foldl (fun acc task => countIncr acc task.name) [],
     r.overflowTasks.foldl (fun sum task => sum + task.profit) 0)

/-- Total number of tasks assigned across all machine timelines. -/
def countAssigned (tls : List (String × Timeline)) : Nat :=
  (tls.map (fun p => p.2.tasks.length)).sum

/-- Total profit of the tasks assigned across all machine timelines
(independent of which machine holds each task). -/
def sumProfit (tls : List (String × Timeline)) : ℚ :=
  (tls.map (fun p => (p.2.tasks.map (fun a => a.task.profit)).sum)).sum

/-- The finish time of the last task of a timeline, scanning from `t`
(`t` itself for an empty timeline). -/
def lastEnd : ℚ → List AssignedTask → ℚ
  | t, [] => t
  | _, a :: rest => lastEnd a.endTime rest

/-- The tasks of a timeline sit back-to-back starting at `t`: each task
starts where the previous one ended and ends `buildTime` later. -/
def chained : ℚ → List AssignedTask → Prop
  | _, [] => True
  | t, a :: rest =>
    a.startTime = t ∧ a.endTime = a.startTime + a.task.buildTime ∧ chained a.endTime rest

instance instDecidableChained : (t : ℚ) → (l : List AssignedTask) → Decidable (chained t l)
  | _, [] => isTrue trivial
  | _, a :: rest =>
    have : Decidable (chained a.endTime rest) := instDecidableChained a.endTime rest
    inferInstanceAs (Decidable (_ ∧ _ ∧ _))

/-- Well-formedness of one machine timeline under budget `total`. -/
def TimelineWF (total : ℚ) (tl : Timeline) : Prop :=
  chained 0 tl.tasks ∧ tl.currentTime = lastEnd 0 tl.tasks ∧
  (∀ a ∈ tl.tasks, a.endTime ≤ total ∧ 0 < a.task.buildTime) ∧
  0 ≤ tl.currentTime

/-- Well-formedness of every timeline of an allocator state. -/
def StateWF (total : ℚ) (s : SchedState) : Prop :=
  ∀ p ∈ s.timelines, TimelineWF total p.2

/-- First-occurrence deduplication of a list of names, carrying the set of
names already seen. -/
def firstOccurAux : List String → List String → List String
  | _, [] => []
  | seen, n :: ns =>
    if n ∈ seen then firstOccurAux seen ns else n :: firstOccurAux (n :: seen) ns

/-- First-occurrence deduplication of a list of names. -/
def firstOccur (names : List String) : List String := firstOccurAux [] names

/-- Keep only the first machine of each name, carrying the names seen. -/
def dedupByNameAux : List String → List Machine → List Machine
  | _, [] => []
  | seen, m :: ms =>
    if m.name ∈ seen then dedupByNameAux seen ms
    else m :: dedupByNameAux (m.name :: seen) ms

/-- Keep only the first machine of each distinct name. -/
def dedupByName (machines : List Machine) : List Machine := dedupByNameAux [] machines

/-! ## Concrete scenario B of the specification -/

/-- Scenario B machine pool: two machines named "A" and "B". -/
def scenarioBMachines : List Machine := [⟨"m1", "A"⟩, ⟨"m2", "B"⟩]

/-- Scenario B catalog: one item with buildTime 100, profit 10, eligible on
both machines. -/
def scenarioBItems : List CatalogItem :=
  [⟨"item1", "Widget", some 100, some 10, some 0, ["A", "B"]⟩]

/-- Scenario B orders: a single order of quantity 5. -/
def scenarioBOrders : List Order := [⟨"order1", "item1", "Widget", 5⟩]

/-- Scenario B settings: 8-hour workday (480-minute budget). -/
def scenarioBSettings : Settings := ⟨some 8, some 9⟩

/-- The `k`-th expanded unit task of scenario B. -/
def scenarioBTask (k : Nat) : Task :=
  ⟨"item1-" ++ toString k, "Widget", 100, 10, 1/10, ["A", "B"]⟩

/-- The timeline of machine "A" in the scenario-B result. -/
def scenarioBTimelineA : Timeline :=
  ⟨[⟨scenarioBTask 0, 0, 100⟩, ⟨scenarioBTask 2, 100, 200⟩, ⟨scenarioBTask 4, 200, 300⟩], 300⟩

/-- The fresh allocator state of scenario B, before any task is placed. -/
def scenarioBInitState : SchedState := ⟨initTimelines scenarioBMachines, 0, []⟩

-- Sanity checks of the embedding on tiny concrete inputs.
example : expandOrder [⟨"i1", "W", some 10, some 5, some 2, ["M"]⟩]
    ⟨"o1", "i1", "W", 2⟩ =
    [⟨"i1-0", "W", 10, 3, 3/10, ["M"]⟩, ⟨"i1-1", "W", 10, 3, 3/10, ["M"]⟩] := by
  norm_num [expandOrder, List.range, List.range.loop, List.find?]
  exact ⟨rfl, rfl⟩

example : totalWorkMinutes ⟨none, none⟩ = 480 := by norm_num [totalWorkMinutes]
example : totalWorkMinutes ⟨some 0, none⟩ = 480 := by norm_num [totalWorkMinutes]
example : totalWorkMinutes ⟨some 10, none⟩ = 600 := by norm_num [totalWorkMinutes]

/-! ## Properties of the machine-selection loop -/

theorem selectBest_nil (tls : List (String × Timeline)) (bt : ℚ)
    (acc : Option (String × ℚ)) : selectBest tls bt [] acc = acc := rfl

theorem selectBest_cons_absent {tls : List (String × Timeline)} {bt : ℚ}
    {name : String} (rest : List String) (acc : Option (String × ℚ))
    (h : objGet tls name = none) :
    selectBest tls bt (name :: rest) acc = selectBest tls bt rest acc := by
  simp only [selectBest, h]

theorem selectBest_cons_first {tls : List (String × Timeline)} {bt : ℚ}
    {name : String} {tl : Timeline} (rest : List String)
    (h : objGet tls name = some tl) :
    selectBest tls bt (name :: rest) none =
      selectBest tls bt rest (some (name, tl.currentTime + bt)) := by
  simp only [selectBest, h]

theorem selectBest_cons_acc {tls : List (String × Timeline)} {bt : ℚ}
    {name : String} {tl : Timeline} (rest : List String) (b : String) (bf : ℚ)
    (h : objGet tls name = some tl) :
    selectBest tls bt (name :: rest) (some (b, bf)) =
      if tl.currentTime + bt < bf then
        selectBest tls bt rest (some (name, tl.currentTime + bt))
      else selectBest tls bt rest (some (b, bf)) := by
  simp only [selectBest, h]

theorem selectBest_acc_le {tls : List (String × Timeline)} {bt : ℚ} :
    ∀ {l : List String} {b : String} {bf : ℚ} {m : String} {ft : ℚ},
      selectBest tls bt l (some (b, bf)) = some (m, ft) → ft ≤ bf := by
  intro l
  induction l with
  | nil =>
    intro b bf m ft h
    simp only [selectBest_nil, Option.some.injEq, Prod.mk.injEq] at h
    exact le_of_eq h.2.symm
  | cons name rest ih =>
    intro b bf m ft h
    cases hg : objGet tls name with
    | none =>
      rw [selectBest_cons_absent rest _ hg] at h
      exact ih h
    | some tl =>
      rw [selectBest_cons_acc rest b bf hg] at h
      by_cases hlt : tl.currentTime + bt < bf
      · rw [if_pos hlt] at h
        exact le_trans (ih h) (le_of_lt hlt)
      · rw [if_neg hlt] at h
        exact ih h

theorem selectBest_min {tls : List (String × Timeline)} {bt : ℚ} :
    ∀ {l : List String} {acc : Option (String × ℚ)} {m : String} {ft : ℚ},
      selectBest tls bt l acc = some (m, ft) →
      ∀ n ∈ l, ∀ tl, objGet tls n = some tl → ft ≤ tl.currentTime + bt := by
  intro l
  induction l with
  | nil => intro acc m ft _ n hn; exact absurd hn (List.not_mem_nil n)
  | cons name rest ih =>
    intro acc m ft h n hn tl htl
    rcases List.mem_cons.mp hn with rfl | hn'
    · cases acc with
      | none =>
        rw [selectBest_cons_first rest htl] at h
        exact selectBest_acc_le h
      | some p =>
        rw [selectBest_cons_acc rest p.1 p.2 htl] at h
        by_cases hlt : tl.currentTime + bt < p.2
        · rw [if_pos hlt] at h
          exact selectBest_acc_le h
        · rw [if_neg hlt] at h
          exact le_trans (selectBest_acc_le h) (not_lt.mp hlt)
    · cases hg : objGet tls name with
      | none =>
        rw [selectBest_cons_absent rest _ hg] at h
        exact ih h n hn' tl htl
      | some tl' =>
        cases acc with
        | none =>
          rw [selectBest_cons_first rest hg] at h
          exact ih h n hn' tl htl
        | some p =>
          rw [selectBest_cons_acc rest p.1 p.2 hg] at h
          by_cases hlt : tl'.currentTime + bt < p.2
          · rw [if_pos hlt] at h
            exact ih h n hn' tl htl
          · rw [if_neg hlt] at h
            exact ih h n hn' tl htl

theorem selectBest_acc_cases {tls : List (String × Timeline)} {bt : ℚ} :
    ∀ {l : List String} {b : String} {bf : ℚ} {m : String} {ft : ℚ},
      selectBest tls bt l (some (b, bf)) = some (m, ft) →
      (m = b ∧ ft = bf) ∨
      (ft < bf ∧ ∃ pre post, l = pre ++ m :: post ∧
        (∃ tl, objGet tls m = some tl ∧ ft = tl.currentTime + bt) ∧
        ∀ n ∈ pre, ∀ tl, objGet tls n = some tl → ft < tl.currentTime + bt) := by
  intro l
  induction l with
  | nil =>
    intro b bf m ft h
    simp only [selectBest_nil, Option.some.injEq, Prod.mk.injEq] at h
    exact Or.inl ⟨h.1.symm, h.2.symm⟩
  | cons name rest ih =>
    intro b bf m ft h
    cases hg : objGet tls name with
    | none =>
      rw [selectBest_cons_absent rest _ hg] at h
      rcases ih h with hl | ⟨hlt, pre, post, hsplit, hm, hpre⟩
      · exact Or.inl hl
      · refine Or.inr ⟨hlt, name :: pre, post, by rw [hsplit]; rfl, hm, ?_⟩
        intro n hn tl htl
        rcases List.mem_cons.mp hn with rfl | hn'
        · rw [hg] at htl; exact absurd htl (by simp)
        · exact hpre n hn' tl htl
    | some tl =>
      rw [selectBest_cons_acc rest b bf hg] at h
      by_cases hlt : tl.currentTime + bt < bf
      · rw [if_pos hlt] at h
        rcases ih h with ⟨rfl, rfl⟩ | ⟨hlt2, pre, post, hsplit, hm, hpre⟩
        · exact Or.inr ⟨hlt, [], rest, rfl, ⟨tl, hg, rfl⟩,
            by intro n hn; exact absurd hn (List.not_mem_nil n)⟩
        · refine Or.inr ⟨lt_trans hlt2 hlt, name :: pre, post, by rw [hsplit]; rfl, hm, ?_⟩
          intro n hn tl' htl'
          rcases List.mem_cons.mp hn with rfl | hn'
          · rw [hg] at htl'
            cases htl'
            exact hlt2
          · exact hpre n hn' tl' htl'
      · rw [if_neg hlt] at h
        rcases ih h with hl | ⟨hlt2, pre, post, hsplit, hm, hpre⟩
        · exact Or.inl hl
        · refine Or.inr ⟨hlt2, name :: pre, post, by rw [hsplit]; rfl, hm, ?_⟩
          intro n hn tl' htl'
          rcases List.mem_cons.mp hn with rfl | hn'
          · rw [hg] at htl'
            cases htl'
            exact lt_of_lt_of_le hlt2 (not_lt.mp hlt)
          · exact hpre n hn' tl' htl'

theorem selectBest_first_argmin {tls : List (String × Timeline)} {bt : ℚ} :
    ∀ {l : List String} {m : String} {ft : ℚ},
      selectBest tls bt l none = some (m, ft) →
      ∃ pre post, l = pre ++ m :: post ∧
        (∃ tl, objGet tls m = some tl ∧ ft = tl.currentTime + bt) ∧
        ∀ n ∈ pre, ∀ tl, objGet tls n = some tl → ft < tl.currentTime + bt := by
  intro l
  induction l with
  | nil => intro m ft h; simp [selectBest_nil] at h
  | cons name rest ih =>
    intro m ft h
    cases hg : objGet tls name with
    | none =>
      rw [selectBest_cons_absent rest _ hg] at h
      rcases ih h with ⟨pre, post, hsplit, hm, hpre⟩
      refine ⟨name :: pre, post, by rw [hsplit]; rfl, hm, ?_⟩
      intro n hn tl htl
      rcases List.mem_cons.mp hn with rfl | hn'
      · rw [hg] at htl; exact absurd htl (by simp)
      · exact hpre n hn' tl htl
    | some tl =>
      rw [selectBest_cons_first rest hg] at h
      rcases selectBest_acc_cases h with ⟨rfl, rfl⟩ | ⟨hlt, pre, post, hsplit, hm, hpre⟩
      · exact ⟨[], rest, rfl, ⟨tl, hg, rfl⟩,
          by intro n hn; exact absurd hn (List.not_mem_nil n)⟩
      · refine ⟨name :: pre, post, by rw [hsplit]; rfl, hm, ?_⟩
        intro n hn tl' htl'
        rcases List.mem_cons.mp hn with rfl | hn'
        · rw [hg] at htl'
          cases htl'
          exact hlt
        · exact hpre n hn' tl' htl'

/-! ## Properties of the string-keyed object operations -/

theorem mem_objSet {tls : List (String × Timeline)} {k : String} {v : Timeline} :
    ∀ p ∈ objSet tls k v, p = (k, v) ∨ p ∈ tls := by
  induction tls with
  | nil => intro p hp; simp [objSet] at hp; exact Or.inl hp
  | cons q rest ih =>
    intro p hp
    obtain ⟨k0, v0⟩ := q
    by_cases hk : k0 = k
    · rw [objSet, if_pos hk] at hp
      rcases List.mem_cons.mp hp with rfl | hp'
      · exact Or.inl rfl
      · exact Or.inr (List.mem_cons_of_mem _ hp')
    · rw [objSet, if_neg hk] at hp
      rcases List.mem_cons.mp hp with rfl | hp'
      · exact Or.inr (List.mem_cons_self _ _)
      · rcases ih p hp' with h | h
        · exact Or.inl h
        · exact Or.inr (List.mem_cons_of_mem _ h)

theorem objGet_mem {tls : List (String × Timeline)} {k : String} {tl : Timeline}
    (h : objGet tls k = some tl) : (k, tl) ∈ tls := by
  induction tls with
  | nil => simp [objGet] at h
  | cons q rest ih =>
    obtain ⟨k0, v0⟩ := q
    by_cases hk : k0 = k
    · rw [objGet, if_pos hk] at h
      cases h
      rw [hk]
      exact List.mem_cons_self _ _
    · rw [objGet, if_neg hk] at h
      exact List.mem_cons_of_mem _ (ih h)

theorem keys_objSet_mem {tls : List (String × Timeline)} {k : String} {v : Timeline}
    (h : k ∈ tls.map Prod.fst) :
    (objSet tls k v).map Prod.fst = tls.map Prod.fst := by
  induction tls with
  | nil => simp at h
  | cons q rest ih =>
    obtain ⟨k0, v0⟩ := q
    by_cases hk : k0 = k
    · rw [objSet, if_pos hk]
      simp [hk]
    · rw [objSet, if_neg hk]
      simp only [List.map_cons] at h ⊢
      rcases List.mem_cons.mp h with h' | h'
      · exact absurd h'.symm hk
      · rw [ih h']

theorem keys_objSet_not_mem {tls : List (String × Timeline)} {k : String} {v : Timeline}
    (h : k ∉ tls.map Prod.fst) :
    (objSet tls k v).map Prod.fst = tls.map Prod.fst ++ [k] := by
  induction tls with
  | nil => simp [objSet]
  | cons q rest ih =>
    obtain ⟨k0, v0⟩ := q
    simp only [List.map_cons, List.mem_cons] at h
    push_neg at h
    rw [objSet, if_neg (Ne.symm h.1)]
    simp only [List.map_cons, List.cons_append, List.cons.injEq, true_and]
    exact ih h.2

theorem objGet_eq_none_of_not_mem {tls : List (String × Timeline)} {k : String}
    (h : k ∉ tls.map Prod.fst) : objGet tls k = none := by
  induction tls with
  | nil => rfl
  | cons q rest ih =>
    obtain ⟨k0, v0⟩ := q
    simp only [List.map_cons, List.mem_cons] at h
    push_neg at h
    rw [objGet, if_neg (Ne.symm h.1)]
    exact ih h.2

theorem objGet_isSome_of_mem {tls : List (String × Timeline)} {k : String}
    (h : k ∈ tls.map Prod.fst) : ∃ tl, objGet tls k = some tl := by
  induction tls with
  | nil => simp at h
  | cons q rest ih =>
    obtain ⟨k0, v0⟩ := q
    by_cases hk : k0 = k
    · exact ⟨v0, by rw [objGet, if_pos hk]⟩
    · simp only [List.map_cons, List.mem_cons] at h
      rcases h with h' | h'
      · exact absurd h'.symm hk
      · obtain ⟨tl, htl⟩ := ih h'
        exact ⟨tl, by rw [objGet, if_neg hk]; exact htl⟩

theorem objSet_id {tls : List (String × Timeline)} {k : String} {v : Timeline}
    (h : objGet tls k = some v) : objSet tls k v = tls := by
  induction tls with
  | nil => simp [objGet] at h
  | cons q rest ih =>
    obtain ⟨k0, v0⟩ := q
    by_cases hk : k0 = k
    · rw [objGet, if_pos hk] at h
      cases h
      rw [objSet, if_pos hk, hk]
    · rw [objGet, if_neg hk] at h
      rw [objSet, if_neg hk, ih h]

/-! ## Conservation and profit accounting -/

theorem countAssigned_objSet_append {tls : List (String × Timeline)} {k : String}
    {tl : Timeline} (a : AssignedTask) (c : ℚ) (h : objGet tls k = some tl) :
    countAssigned (objSet tls k ⟨tl.tasks ++ [a], c⟩) = countAssigned tls + 1 := by
  induction tls with
  | nil => simp [objGet] at h
  | cons q rest ih =>
    obtain ⟨k0, v0⟩ := q
    by_cases hk : k0 = k
    · rw [objGet, if_pos hk] at h
      cases h
      rw [objSet, if_pos hk]
      simp [countAssigned]
      omega
    · rw [objGet, if_neg hk] at h
      rw [objSet, if_neg hk]
      simp only [countAssigned, List.map_cons, List.sum_cons] at ih ⊢
      rw [ih h]
      omega

theorem sumProfit_objSet_append {tls : List (String × Timeline)} {k : String}
    {tl : Timeline} (a : AssignedTask) (c : ℚ) (h : objGet tls k = some tl) :
    sumProfit (objSet tls k ⟨tl.tasks ++ [a], c⟩) = sumProfit tls + a.task.profit := by
  induction tls with
  | nil => simp [objGet] at h
  | cons q rest ih =>
    obtain ⟨k0, v0⟩ := q
    by_cases hk : k0 = k
    · rw [objGet, if_pos hk] at h
      cases h
      rw [objSet, if_pos hk]
      simp [sumProfit]
      ring
    · rw [objGet, if_neg hk] at h
      rw [objSet, if_neg hk]
      simp only [sumProfit, List.map_cons, List.sum_cons] at ih ⊢
      rw [ih h]
      ring

theorem allocStep_count (total : ℚ) (s : SchedState) (task : Task) :
    countAssigned (allocStep total s task).timelines +
      (allocStep total s task).overflowTasks.length =
    countAssigned s.timelines + s.overflowTasks.length + 1 := by
  cases hsel : selectBest s.timelines task.buildTime task.allowedMachines none with
  | none => simp [allocStep, hsel]; omega
  | some p =>
    obtain ⟨bm, ft⟩ := p
    by_cases hcond : bm ≠ "" ∧ ft ≤ total
    · cases hget : objGet s.timelines bm with
      | none => simp [allocStep, hsel, hget, if_pos hcond]; omega
      | some tl =>
        simp only [allocStep, hsel, hget, if_pos hcond]
        rw [countAssigned_objSet_append _ _ hget]
        omega
    · simp [allocStep, hsel, if_neg hcond]; omega

theorem allocStep_profit (total : ℚ) (s : SchedState) (task : Task) :
    (allocStep total s task).totalProfit - sumProfit (allocStep total s task).timelines =
    s.totalProfit - sumProfit s.timelines := by
  cases hsel : selectBest s.timelines task.buildTime task.allowedMachines none with
  | none => simp [allocStep, hsel]
  | some p =>
    obtain ⟨bm, ft⟩ := p
    by_cases hcond : bm ≠ "" ∧ ft ≤ total
    · cases hget : objGet s.timelines bm with
      | none => simp [allocStep, hsel, hget, if_pos hcond]
      | some tl =>
        simp only [allocStep, hsel, hget, if_pos hcond]
        rw [sumProfit_objSet_append _ _ hget]
        ring
    · simp [allocStep, hsel, if_neg hcond]

/-! ## Timeline well-formedness -/

theorem lastEnd_append (t : ℚ) (l : List AssignedTask) (a : AssignedTask) :
    lastEnd t (l ++ [a]) = a.endTime := by
  induction l generalizing t with
  | nil => rfl
  | cons b rest ih => exact ih b.endTime

theorem chained_append {t : ℚ} {l : List AssignedTask} {a : AssignedTask}
    (hc : chained t l) (hs : a.startTime = lastEnd t l)
    (he : a.endTime = a.startTime + a.task.buildTime) : chained t (l ++ [a]) := by
  induction l generalizing t with
  | nil => exact ⟨hs, he, trivial⟩
  | cons b rest ih =>
    obtain ⟨hb1, hb2, hb3⟩ := hc
    exact ⟨hb1, hb2, ih hb3 hs⟩

theorem le_lastEnd_of_chained {t : ℚ} {l : List AssignedTask} (hc : chained t l)
    (hpos : ∀ a ∈ l, 0 ≤ a.task.buildTime) : t ≤ lastEnd t l := by
  induction l generalizing t with
  | nil => exact le_refl t
  | cons a rest ih =>
    obtain ⟨h1, h2, h3⟩ := hc
    have ha : t ≤ a.endTime := by
      rw [h2, h1]
      linarith [hpos a (List.mem_cons_self a rest)]
    exact le_trans ha (ih h3 (fun b hb => hpos b (List.mem_cons_of_mem a hb)))

theorem lastEnd_eq_last_endTime {t : ℚ} {l : List AssignedTask} (hne : l ≠ []) :
    ∃ a ∈ l, lastEnd t l = a.endTime := by
  induction l generalizing t with
  | nil => exact absurd rfl hne
  | cons a rest ih =>
    cases rest with
    | nil => exact ⟨a, List.mem_cons_self a [], rfl⟩
    | cons b rest' =>
      obtain ⟨c, hc, hc2⟩ := ih (t := a.endTime) (by simp)
      exact ⟨c, List.mem_cons_of_mem a hc, hc2⟩

theorem start_ge_of_chained {t : ℚ} {l : List AssignedTask} (hc : chained t l)
    (hpos : ∀ a ∈ l, 0 ≤ a.task.buildTime) : ∀ a ∈ l, t ≤ a.startTime := by
  induction l generalizing t with
  | nil => intro a ha; exact absurd ha (List.not_mem_nil a)
  | cons b rest ih =>
    obtain ⟨h1, h2, h3⟩ := hc
    intro a ha
    rcases List.mem_cons.mp ha with rfl | ha'
    · exact le_of_eq h1.symm
    · have hb : t ≤ b.endTime := by
        rw [h2, h1]
        linarith [hpos b (List.mem_cons_self b rest)]
      exact le_trans hb (ih h3 (fun c hc' => hpos c (List.mem_cons_of_mem b hc')) a ha')

theorem starts_mono_of_chained {t : ℚ} {l : List AssignedTask} (hc : chained t l)
    (hpos : ∀ a ∈ l, 0 ≤ a.task.buildTime) :
    List.Pairwise (fun a b => a.startTime ≤ b.startTime) l := by
  induction l generalizing t with
  | nil => exact List.Pairwise.nil
  | cons a rest ih =>
    obtain ⟨h1, h2, h3⟩ := hc
    have hrest := fun b hb => hpos b (List.mem_cons_of_mem a hb)
    refine List.Pairwise.cons ?_ (ih h3 hrest)
    intro b hb
    have hstart := start_ge_of_chained h3 hrest b hb
    have : a.startTime ≤ a.endTime := by
      rw [h2]
      linarith [hpos a (List.mem_cons_self a rest)]
    linarith

theorem initTimelines_values {machines : List Machine} :
    ∀ p ∈ initTimelines machines, p.2 = Timeline.mk [] 0 := by
  have aux : ∀ (ms : List Machine) (acc : List (String × Timeline)),
      (∀ p ∈ acc, p.2 = Timeline.mk [] 0) →
      ∀ p ∈ ms.foldl (fun a m => objSet a m.name ⟨[], 0⟩) acc, p.2 = Timeline.mk [] 0 := by
    intro ms
    induction ms with
    | nil => intro acc hacc; exact hacc
    | cons m rest ih =>
      intro acc hacc
      refine ih _ ?_
      intro p hp
      rcases mem_objSet p hp with rfl | hp'
      · rfl
      · exact hacc p hp'
  exact aux machines [] (by intro p hp; exact absurd hp (List.not_mem_nil p))

theorem initTimelines_WF (total : ℚ) (machines : List Machine) :
    StateWF total ⟨initTimelines machines, 0, []⟩ := by
  intro p hp
  rw [initTimelines_values p hp]
  exact ⟨trivial, rfl, by intro a ha; exact absurd ha (List.not_mem_nil a), le_refl 0⟩

theorem allocStep_WF {total : ℚ} {s : SchedState} {task : Task}
    (hwf : StateWF total s) (hbt : 0 < task.buildTime) :
    StateWF total (allocStep total s task) := by
  cases hsel : selectBest s.timelines task.buildTime task.allowedMachines none with
  | none => simpa [allocStep, hsel] using hwf
  | some p =>
    obtain ⟨bm, ft⟩ := p
    by_cases hcond : bm ≠ "" ∧ ft ≤ total
    · cases hget : objGet s.timelines bm with
      | none => simpa [allocStep, hsel, hget, if_pos hcond] using hwf
      | some tl =>
        simp only [allocStep, hsel, hget, if_pos hcond]
        obtain ⟨_, _, _, ⟨tl', htl', hft⟩, _⟩ := selectBest_first_argmin hsel
        rw [hget] at htl'
        cases htl'
        have hwftl := hwf (bm, tl) (objGet_mem hget)
        obtain ⟨hch, hcur, hbound, hpos⟩ := hwftl
        intro q hq
        rcases mem_objSet q hq with rfl | hq'
        · refine ⟨?_, ?_, ?_, ?_⟩
          · exact chained_append hch (by rw [hcur]) (by rw [hft])
          · simp only
            rw [lastEnd_append]
          · intro a ha
            rcases List.mem_append.mp ha with ha' | ha'
            · exact hbound a ha'
            · rcases List.mem_singleton.mp ha' with rfl
              exact ⟨hcond.2, hbt⟩
          · simp only
            rw [hft]
            linarith
        · exact hwf q hq'
    · simpa [allocStep, hsel, if_neg hcond] using hwf

theorem foldl_allocStep_WF {total : ℚ} :
    ∀ {tasks : List Task} {s : SchedState}, StateWF total s →
      (∀ t ∈ tasks, 0 < t.buildTime) →
      StateWF total (tasks.foldl (allocStep total) s) := by
  intro tasks
  induction tasks with
  | nil => intro s hs _; exact hs
  | cons t rest ih =>
    intro s hs hpos
    exact ih (allocStep_WF hs (hpos t (List.mem_cons_self t rest)))
      (fun u hu => hpos u (List.mem_cons_of_mem t hu))

/-! ## Properties of expansion and ranking -/

theorem expandOrder_buildTime_pos {items : List CatalogItem} {o : Order} :
    ∀ t ∈ expandOrder items o, 0 < t.buildTime := by
  intro t ht
  cases hfind : items.find? (fun i => i.id == o.itemId) with
  | none => simp [expandOrder, hfind] at ht
  | some itemDetails =>
    cases hbt : itemDetails.buildTime with
    | none => simp [expandOrder, hfind, hbt] at ht
    | some bt =>
      by_cases hpos : bt ≤ 0
      · simp [expandOrder, hfind, hbt, if_pos hpos] at ht
      · simp only [expandOrder, hfind, hbt, if_neg hpos] at ht
        obtain ⟨i, _, rfl⟩ := List.mem_map.mp ht
        exact not_le.mp hpos

theorem expandAll_buildTime_pos {items : List CatalogItem} :
    ∀ {os : List Order}, ∀ t ∈ expandAll items os, 0 < t.buildTime := by
  intro os
  induction os with
  | nil => intro t ht; exact absurd ht (List.not_mem_nil t)
  | cons o rest ih =>
    intro t ht
    rcases List.mem_append.mp ht with h | h
    · exact expandOrder_buildTime_pos t h
    · exact ih t h

theorem insertTask_perm (t : Task) (l : List Task) :
    List.Perm (insertTask t l) (t :: l) := by
  induction l with
  | nil => exact List.Perm.refl _
  | cons u us ih =>
    rw [insertTask]
    by_cases h : u.profitPerMinute ≤ t.profitPerMinute
    · rw [if_pos h]
    · rw [if_neg h]
      exact List.Perm.trans (List.Perm.cons u ih) (List.Perm.swap t u us)

theorem rankTasks_perm (l : List Task) : List.Perm (rankTasks l) l := by
  induction l with
  | nil => exact List.Perm.refl _
  | cons t ts ih =>
    exact List.Perm.trans (insertTask_perm t (rankTasks ts)) (List.Perm.cons t ih)

theorem countAssigned_init (machines : List Machine) :
    countAssigned (initTimelines machines) = 0 := by
  refine List.sum_eq_zero ?_
  intro x hx
  obtain ⟨p, hp, rfl⟩ := List.mem_map.mp hx
  rw [initTimelines_values p hp]
  rfl

theorem sumProfit_init (machines : List Machine) :
    sumProfit (initTimelines machines) = 0 := by
  refine List.sum_eq_zero ?_
  intro x hx
  obtain ⟨p, hp, rfl⟩ := List.mem_map.mp hx
  rw [initTimelines_values p hp]
  rfl

theorem foldl_allocStep_count (total : ℚ) :
    ∀ (tasks : List Task) (s : SchedState),
      countAssigned (tasks.foldl (allocStep total) s).timelines +
        (tasks.foldl (allocStep total) s).overflowTasks.length =
      countAssigned s.timelines + s.overflowTasks.length + tasks.length := by
  intro tasks
  induction tasks with
  | nil => intro s; rfl
  | cons t rest ih =>
    intro s
    rw [List.foldl_cons, ih (allocStep total s t), allocStep_count]
    simp only [List.length_cons]
    omega

theorem foldl_allocStep_profit (total : ℚ) :
    ∀ (tasks : List Task) (s : SchedState),
      (tasks.foldl (allocStep total) s).totalProfit -
        sumProfit (tasks.foldl (allocStep total) s).timelines =
      s.totalProfit - sumProfit s.timelines := by
  intro tasks
  induction tasks with
  | nil => intro s; rfl
  | cons t rest ih =>
    intro s
    rw [List.foldl_cons, ih (allocStep total s t), allocStep_profit]

theorem foldl_profit_sum (c : ℚ) (l : List Task) :
    l.foldl (fun sum task => sum + task.profit) c = c + (l.map (fun t => t.profit)).sum := by
  induction l generalizing c with
  | nil => simp
  | cons t rest ih =>
    rw [List.foldl_cons, ih (c + t.profit)]
    simp [List.map_cons, List.sum_cons]
    ring

/-! ## Sortedness and stability of the ranking -/

theorem mem_insertTask {t u : Task} {l : List Task} :
    u ∈ insertTask t l ↔ u ∈ t :: l :=
  (insertTask_perm t l).mem_iff

theorem insertTask_sorted {t : Task} {l : List Task}
    (h : List.Pairwise (fun a b => b.profitPerMinute ≤ a.profitPerMinute) l) :
    List.Pairwise (fun a b => b.profitPerMinute ≤ a.profitPerMinute) (insertTask t l) := by
  induction l with
  | nil => exact List.pairwise_singleton _ t
  | cons u us ih =>
    rw [insertTask]
    by_cases hle : u.profitPerMinute ≤ t.profitPerMinute
    · rw [if_pos hle]
      refine List.Pairwise.cons ?_ h
      intro b hb
      rcases List.mem_cons.mp hb with rfl | hb'
      · exact hle
      · exact le_trans ((List.pairwise_cons.mp h).1 b hb') hle
    · rw [if_neg hle]
      obtain ⟨hu, hus⟩ := List.pairwise_cons.mp h
      refine List.Pairwise.cons ?_ (ih hus)
      intro b hb
      rcases List.mem_cons.mp (mem_insertTask.mp hb) with rfl | hb'
      · exact le_of_lt (not_le.mp hle)
      · exact hu b hb'

theorem rankTasks_sorted (l : List Task) :
    List.Pairwise (fun a b => b.profitPerMinute ≤ a.profitPerMinute) (rankTasks l) := by
  induction l with
  | nil => exact List.Pairwise.nil
  | cons t ts ih => exact insertTask_sorted ih

theorem insertTask_filter (t : Task) (l : List Task) (q : ℚ) :
    (insertTask t l).filter (fun u => decide (u.profitPerMinute = q)) =
      (t :: l).filter (fun u => decide (u.profitPerMinute = q)) := by
  induction l with
  | nil => rfl
  | cons u us ih =>
    rw [insertTask]
    by_cases hle : u.profitPerMinute ≤ t.profitPerMinute
    · rw [if_pos hle]
    · rw [if_neg hle]
      by_cases htq : t.profitPerMinute = q
      · have huq : ¬ u.profitPerMinute = q := by
          intro h
          exact hle (le_of_eq (h.trans htq.symm))
        simp only [List.filter_cons, ih]
        simp [huq, htq]
      · by_cases huq : u.profitPerMinute = q
        · simp only [List.filter_cons, ih]
          simp [huq, htq]
        · simp only [List.filter_cons, ih]
          simp [huq, htq]

theorem rankTasks_filter (l : List Task) (q : ℚ) :
    (rankTasks l).filter (fun u => decide (u.profitPerMinute = q)) =
      l.filter (fun u => decide (u.profitPerMinute = q)) := by
  induction l with
  | nil => rfl
  | cons t ts ih =>
    rw [rankTasks, insertTask_filter]
    by_cases htq : t.profitPerMinute = q
    · simp [List.filter_cons, htq, ih]
    · simp [List.filter_cons, htq, ih]

/-! ## Duplicate machine names -/

theorem initTimelines_keys_aux :
    ∀ (ms : List Machine) (acc : List (String × Timeline)) (seen : List String),
      (∀ n, n ∈ seen ↔ n ∈ acc.map Prod.fst) →
      (ms.foldl (fun a m => objSet a m.name ⟨[], 0⟩) acc).map Prod.fst =
        acc.map Prod.fst ++ firstOccurAux seen (ms.map (fun m => m.name)) := by
  intro ms
  induction ms with
  | nil => intro acc seen _; simp [firstOccurAux]
  | cons m rest ih =>
    intro acc seen hseen
    simp only [List.foldl_cons, List.map_cons, firstOccurAux]
    by_cases hm : m.name ∈ seen
    · rw [if_pos hm]
      rw [ih (objSet acc m.name ⟨[], 0⟩) seen ?_]
      · rw [keys_objSet_mem ((hseen m.name).mp hm)]
      · intro n
        rw [hseen n, keys_objSet_mem ((hseen m.name).mp hm)]
    · rw [if_neg hm]
      have hnotin : m.name ∉ acc.map Prod.fst := fun hc => hm ((hseen m.name).mpr hc)
      rw [ih (objSet acc m.name ⟨[], 0⟩) (m.name :: seen) ?_]
      · rw [keys_objSet_not_mem hnotin]
        simp
      · intro n
        rw [keys_objSet_not_mem hnotin]
        simp only [List.mem_cons, List.mem_append, List.mem_singleton]
        rw [hseen n]
        tauto

theorem initTimelines_keys (machines : List Machine) :
    (initTimelines machines).map Prod.fst = firstOccur (machines.map (fun m => m.name)) := by
  have h := initTimelines_keys_aux machines [] [] (by simp)
  simpa [initTimelines, firstOccur] using h

theorem firstOccurAux_nodup :
    ∀ (names seen : List String),
      (firstOccurAux seen names).Nodup ∧ ∀ n ∈ firstOccurAux seen names, n ∉ seen := by
  intro names
  induction names with
  | nil =>
    intro seen
    exact ⟨List.nodup_nil, by intro n hn; exact absurd hn (List.not_mem_nil n)⟩
  | cons n ns ih =>
    intro seen
    rw [firstOccurAux]
    by_cases hn : n ∈ seen
    · rw [if_pos hn]
      exact ih seen
    · rw [if_neg hn]
      obtain ⟨hnodup, hfresh⟩ := ih (n :: seen)
      constructor
      · refine List.Nodup.cons ?_ hnodup
        intro hc
        exact hfresh n hc (List.mem_cons_self n seen)
      · intro x hx
        rcases List.mem_cons.mp hx with rfl | hx'
        · exact hn
        · exact fun hc => hfresh x hx' (List.mem_cons_of_mem n hc)

theorem allocStep_keys (total : ℚ) (s : SchedState) (task : Task) :
    (allocStep total s task).timelines.map Prod.fst = s.timelines.map Prod.fst := by
  cases hsel : selectBest s.timelines task.buildTime task.allowedMachines none with
  | none => simp [allocStep, hsel]
  | some p =>
    obtain ⟨bm, ft⟩ := p
    by_cases hcond : bm ≠ "" ∧ ft ≤ total
    · cases hget : objGet s.timelines bm with
      | none => simp [allocStep, hsel, hget, if_pos hcond]
      | some tl =>
        simp only [allocStep, hsel, hget, if_pos hcond]
        exact keys_objSet_mem (List.mem_map_of_mem Prod.fst (objGet_mem hget))
    · simp [allocStep, hsel, if_neg hcond]

theorem foldl_allocStep_keys (total : ℚ) :
    ∀ (tasks : List Task) (s : SchedState),
      (tasks.foldl (allocStep total) s).timelines.map Prod.fst =
        s.timelines.map Prod.fst := by
  intro tasks
  induction tasks with
  | nil => intro s; rfl
  | cons t rest ih =>
    intro s
    rw [List.foldl_cons, ih (allocStep total s t), allocStep_keys]

theorem initTimelines_dedup_aux :
    ∀ (ms : List Machine) (acc : List (String × Timeline)) (seen : List String),
      (∀ n, n ∈ seen ↔ n ∈ acc.map Prod.fst) →
      (∀ p ∈ acc, p.2 = Timeline.mk [] 0) →
      ms.foldl (fun a m => objSet a m.name ⟨[], 0⟩) acc =
        (dedupByNameAux seen ms).foldl (fun a m => objSet a m.name ⟨[], 0⟩) acc := by
  intro ms
  induction ms with
  | nil => intro acc seen _ _; rfl
  | cons m rest ih =>
    intro acc seen hseen hvals
    rw [dedupByNameAux]
    by_cases hm : m.name ∈ seen
    · rw [if_pos hm, List.foldl_cons]
      obtain ⟨tl, htl⟩ := objGet_isSome_of_mem ((hseen m.name).mp hm)
      have hv : tl = ⟨[], 0⟩ := hvals (m.name, tl) (objGet_mem htl)
      rw [hv] at htl
      rw [objSet_id htl]
      exact ih acc seen hseen hvals
    · rw [if_neg hm, List.foldl_cons, List.foldl_cons]
      refine ih (objSet acc m.name ⟨[], 0⟩) (m.name :: seen) ?_ ?_
      · intro n
        rw [keys_objSet_not_mem (fun hc => hm ((hseen m.name).mpr hc))]
        simp only [List.mem_cons, List.mem_append, List.mem_singleton]
        rw [hseen n]
        tauto
      · intro p hp
        rcases mem_objSet p hp with rfl | hp'
        · rfl
        · exact hvals p hp'

theorem initTimelines_dedup (machines : List Machine) :
    initTimelines machines = initTimelines (dedupByName machines) :=
  initTimelines_dedup_aux machines [] [] (by simp) (by simp)

/-! ## Claim theorems -/

/-- C1: whenever the greedy allocator assigns a task (equivalently, whenever
the selection loop returns a best machine), the returned machine is eligible
(its name occurs in the task's `allowedMachines` and it is present in the
machine pool), its candidate finish time `currentTime + buildTime` is the
minimum over all eligible machines, every eligible machine scanned before it
in `allowedMachines` stored order has a strictly larger candidate finish
time (first-occurrence tie-break), and — when the name is truthy and the
finish time is within budget — the allocator appends the task exactly to
that machine's timeline. -/
theorem claim1_greedy_selection (total : ℚ) (s : SchedState) (task : Task)
    (m : String) (ft : ℚ)
    (hsel : selectBest s.timelines task.buildTime task.allowedMachines none = some (m, ft)) :
    (∃ pre post, task.allowedMachines = pre ++ m :: post ∧
      (∃ tl, objGet s.timelines m = some tl ∧ ft = tl.currentTime + task.buildTime) ∧
      (∀ n ∈ pre, ∀ tl, objGet s.timelines n = some tl →
        ft < tl.currentTime + task.buildTime)) ∧
    (∀ n ∈ task.allowedMachines, ∀ tl, objGet s.timelines n = some tl →
      ft ≤ tl.currentTime + task.buildTime) ∧
    (m ≠ "" → ft ≤ total → ∃ tl, objGet s.timelines m = some tl ∧
      allocStep total s task =
        { timelines := objSet s.timelines m
            { tasks := tl.tasks ++ [{ task := task, startTime := tl.currentTime, endTime := ft }]
              currentTime := ft }
          totalProfit := s.totalProfit + task.profit
          overflowTasks := s.overflowTasks }) := by
  refine ⟨selectBest_first_argmin hsel, selectBest_min hsel, ?_⟩
  intro hne hle
  obtain ⟨_, _, _, ⟨tl, htl, _⟩, _⟩ := selectBest_first_argmin hsel
  refine ⟨tl, htl, ?_⟩
  simp only [allocStep, hsel, htl, if_pos (And.intro hne hle)]

/-- C2: the allocator conserves tasks — the number of expanded tasks equals
the number of tasks assigned across machine timelines plus the number of
overflow tasks, for every input. -/
theorem claim2_conservation (orders : List Order) (items : List CatalogItem)
    (machines : List Machine) (settings : Settings) :
    countAssigned (computeSchedule orders items machines settings).schedule +
      (computeSchedule orders items machines settings).overflowTasks.length =
      (expandAll items orders).length := by
  unfold computeSchedule runAllocator
  rw [foldl_allocStep_count]
  simp only [countAssigned_init, List.length_nil]
  rw [(rankTasks_perm (expandAll items orders)).length_eq]
  omega

/-- C4: the result's `totalProfit` is the sum of the profits of all
assigned tasks (summed across all machine timelines, independently of which
machine holds each task), and the overflow aggregator's missed profit is
the sum of the profits of all overflow tasks. -/
theorem claim4_profit_additivity (orders : List Order) (items : List CatalogItem)
    (machines : List Machine) (settings : Settings) :
    (computeSchedule orders items machines settings).totalProfit =
      sumProfit (computeSchedule orders items machines settings).schedule ∧
    (aggregatedOverflow (some (computeSchedule orders items machines settings))).2 =
      ((computeSchedule orders items machines settings).overflowTasks.map
        (fun t => t.profit)).sum := by
  constructor
  · have h := foldl_allocStep_profit (totalWorkMinutes settings)
      (rankTasks (expandAll items orders))
      { timelines := initTimelines machines, totalProfit := 0, overflowTasks := [] }
    unfold computeSchedule runAllocator
    rw [sumProfit_init] at h
    simp only at h
    linarith [h]
  · show (List.foldl (fun acc task => countIncr acc task.name) []
        (computeSchedule orders items machines settings).overflowTasks,
      List.foldl (fun sum task => sum + task.profit) 0
        (computeSchedule orders items machines settings).overflowTasks).2 = _
    rw [foldl_profit_sum]
    ring

/-- C5: the profit ranker is a stable descending sort — the ranked sequence
is a permutation of the expanded sequence, it is sorted so that later tasks
never have larger `profitPerMinute` (tasks with distinct densities are in
descending order), and for every density value the subsequence of tasks
having exactly that density is unchanged from expansion order (tasks with
equal `profitPerMinute` keep their relative expansion order). -/
theorem claim5_ranker_stable (orders : List Order) (items : List CatalogItem) :
    List.Perm (rankTasks (expandAll items orders)) (expandAll items orders) ∧
    List.Pairwise (fun a b => b.profitPerMinute ≤ a.profitPerMinute)
      (rankTasks (expandAll items orders)) ∧
    ∀ q : ℚ, (rankTasks (expandAll items orders)).filter
        (fun u => decide (u.profitPerMinute = q)) =
      (expandAll items orders).filter (fun u => decide (u.profitPerMinute = q)) :=
  ⟨rankTasks_perm _, rankTasks_sorted _, fun q => rankTasks_filter _ q⟩

/-- C3 (amended): in every allocator result, each machine timeline is
back-to-back from minute 0 (each task starts where the previous ended and
ends `buildTime` later), start times are non-decreasing, every assigned
task ends within the budget, a machine with at least one task has final
`currentTime` within the budget, and — provided the budget is nonnegative —
every machine's final `currentTime` is within the budget. (The unamended
claim fails for a negative budget: an idle machine keeps `currentTime = 0`,
which then exceeds `totalWorkMinutes`.) -/
theorem claim3_timeline_contiguity (orders : List Order) (items : List CatalogItem)
    (machines : List Machine) (settings : Settings) :
    ∀ p ∈ (computeSchedule orders items machines settings).schedule,
      chained 0 p.2.tasks ∧
      p.2.currentTime = lastEnd 0 p.2.tasks ∧
      List.Pairwise (fun a b => a.startTime ≤ b.startTime) p.2.tasks ∧
      (∀ a ∈ p.2.tasks, a.endTime ≤ totalWorkMinutes settings) ∧
      (p.2.tasks ≠ [] → p.2.currentTime ≤ totalWorkMinutes settings) ∧
      (0 ≤ totalWorkMinutes settings → p.2.currentTime ≤ totalWorkMinutes settings) := by
  intro p hp
  have hwf : StateWF (totalWorkMinutes settings)
      (runAllocator (totalWorkMinutes settings) machines
        (rankTasks (expandAll items orders))) := by
    refine foldl_allocStep_WF (initTimelines_WF _ machines) ?_
    intro t ht
    exact expandAll_buildTime_pos t ((rankTasks_perm _).mem_iff.mp ht)
  have hptl := hwf p hp
  obtain ⟨hch, hcur, hbound, hpos⟩ := hptl
  have hbt0 : ∀ a ∈ p.2.tasks, 0 ≤ a.task.buildTime :=
    fun a ha => le_of_lt (hbound a ha).2
  refine ⟨hch, hcur, starts_mono_of_chained hch hbt0,
    fun a ha => (hbound a ha).1, ?_, ?_⟩
  · intro hne
    obtain ⟨a, ha, hend⟩ := lastEnd_eq_last_endTime (t := 0) hne
    rw [hcur, hend]
    exact (hbound a ha).1
  · intro htot
    cases htasks : p.2.tasks with
    | nil =>
      rw [hcur, htasks]
      exact htot
    | cons a rest =>
      obtain ⟨b, hb, hend⟩ := lastEnd_eq_last_endTime (t := 0)
        (htasks ▸ (List.cons_ne_nil a rest))
      rw [hcur, hend]
      exact (hbound b hb).1

/-- C6 (counterexample): in scenario B the allocator does NOT fill machine
"A" with four units and machine "B" with one — machine "A" ends up with
three tasks and machine "B" with two, because after each assignment the
other machine has the strictly smaller candidate finish time. -/
theorem claim6_counterexample :
    ((objGet (computeSchedule scenarioBOrders scenarioBItems scenarioBMachines
        scenarioBSettings).schedule "A").map (fun tl => tl.tasks.length) = some 3 ∧
     (objGet (computeSchedule scenarioBOrders scenarioBItems scenarioBMachines
        scenarioBSettings).schedule "B").map (fun tl => tl.tasks.length) = some 2) ∧
    ¬ ((objGet (computeSchedule scenarioBOrders scenarioBItems scenarioBMachines
        scenarioBSettings).schedule "A").map (fun tl => tl.tasks.length) = some 4 ∧
       (objGet (computeSchedule scenarioBOrders scenarioBItems scenarioBMachines
        scenarioBSettings).schedule "B").map (fun tl => tl.tasks.length) = some 1) := by
  with_unfolding_all decide

/-- C6 (amended): in scenario B the allocator alternates between the two
machines: units 1, 3, 5 go to machine "A" at 0-100, 100-200, 200-300 and
units 2, 4 go to machine "B" at 0-100, 100-200, for a scheduled profit of
50 and no overflow. -/
theorem claim6_alternating_schedule :
    computeSchedule scenarioBOrders scenarioBItems scenarioBMachines scenarioBSettings =
      ⟨[("A", ⟨[⟨scenarioBTask 0, 0, 100⟩, ⟨scenarioBTask 2, 100, 200⟩,
                ⟨scenarioBTask 4, 200, 300⟩], 300⟩),
        ("B", ⟨[⟨scenarioBTask 1, 0, 100⟩, ⟨scenarioBTask 3, 100, 200⟩], 200⟩)],
       50, []⟩ := by
  with_unfolding_all decide

/-- C7 (counterexample): a supplied `workHours = 0` is falsy in JavaScript,
so `(settings.workHours || 8) * 60` yields the default 480 rather than
`0 * 60 = 0` — the budget is not a linear function of the supplied value. -/
theorem claim7_counterexample :
    totalWorkMinutes ⟨some 0, some 9⟩ = 480 ∧ (0 : ℚ) * 60 = 0 ∧ (480 : ℚ) ≠ 0 := by
  refine ⟨by with_unfolding_all decide, by norm_num, by norm_num⟩

/-- C7 (amended): the budget is `workHours * 60` for every supplied nonzero
`workHours`, and 480 (the 8-hour default) when `workHours` is absent or
zero (both falsy under `||`). -/
theorem claim7_budget (settings : Settings) :
    (∀ w : ℚ, settings.workHours = some w → w ≠ 0 →
      totalWorkMinutes settings = w * 60) ∧
    (settings.workHours = none → totalWorkMinutes settings = 480) ∧
    (settings.workHours = some 0 → totalWorkMinutes settings = 480) := by
  refine ⟨?_, ?_, ?_⟩
  · intro w hw hne
    simp only [totalWorkMinutes, hw, if_neg hne]
  · intro hw
    simp only [totalWorkMinutes, hw]
    norm_num
  · intro hw
    simp only [totalWorkMinutes, hw, if_pos rfl]
    norm_num

/-- C7 witness: applying the amended budget law at `workHours = 10`. -/
theorem claim7_witness : totalWorkMinutes ⟨some 10, some 9⟩ = 10 * 60 :=
  (claim7_budget ⟨some 10, some 9⟩).1 10 rfl (by norm_num)

/-- C8: the task expander drops an order silently (empty emission, no
error) when the item is not found in the catalog or its build time is
missing or ≤ 0; otherwise it emits exactly `quantity` one-unit tasks, each
with profit `price - cost` where an unparsable price or cost contributes 0
(`Option.getD 0` models `parseFloat(x) || 0`). -/
theorem claim8_expander_tolerant (items : List CatalogItem) (order : Order) :
    (items.find? (fun i => i.id == order.itemId) = none →
      expandOrder items order = []) ∧
    (∀ itemDetails, items.find? (fun i => i.id == order.itemId) = some itemDetails →
      (itemDetails.buildTime = none → expandOrder items order = []) ∧
      (∀ bt : ℚ, itemDetails.buildTime = some bt →
        (bt ≤ 0 → expandOrder items order = []) ∧
        (0 < bt →
          (expandOrder items order).length = order.quantity ∧
          ∀ t ∈ expandOrder items order,
            t.profit = itemDetails.price.getD 0 - itemDetails.cost.getD 0))) := by
  constructor
  · intro hfind
    simp only [expandOrder, hfind]
  · intro itemDetails hfind
    constructor
    · intro hbt
      simp only [expandOrder, hfind, hbt]
    · intro bt hbt
      constructor
      · intro hle
        simp only [expandOrder, hfind, hbt, if_pos hle]
      · intro hpos
        constructor
        · simp only [expandOrder, hfind, hbt, if_neg (not_le.mpr hpos),
            List.length_map, List.length_range]
        · intro t ht
          simp only [expandOrder, hfind, hbt, if_neg (not_le.mpr hpos)] at ht
          obtain ⟨i, _, rfl⟩ := List.mem_map.mp ht
          rfl

/-- C8 witness: the expander law applied to a concrete catalog — an order
of quantity 3 for an item with build time 10, unparsable price (`none`)
and cost 4 yields exactly 3 tasks of profit `0 - 4`. -/
theorem claim8_witness :
    (expandOrder [⟨"i1", "W", some 10, none, some 4, ["M"]⟩]
        ⟨"o1", "i1", "W", 3⟩).length = 3 ∧
    ∀ t ∈ expandOrder [⟨"i1", "W", some 10, none, some 4, ["M"]⟩]
        ⟨"o1", "i1", "W", 3⟩,
      t.profit = (Option.none.getD (0:ℚ)) - ((some (4:ℚ)).getD 0) :=
  ((claim8_expander_tolerant [⟨"i1", "W", some 10, none, some 4, ["M"]⟩]
      ⟨"o1", "i1", "W", 3⟩).2
    ⟨"i1", "W", some 10, none, some 4, ["M"]⟩ (by with_unfolding_all decide)).2
    10 rfl |>.2 (by norm_num)

/-- C9 (counterexample): a task's id is `itemId-index`, not derived from
the order's own id — two distinct orders for the same catalog item produce
tasks with identical ids ("item1-0" twice). -/
theorem claim9_counterexample :
    (Order.mk "orderA" "item1" "Widget" 1 ≠ Order.mk "orderB" "item1" "Widget" 1) ∧
    (expandAll [⟨"item1", "Widget", some 10, some 5, some 2, ["M"]⟩]
        [⟨"orderA", "item1", "Widget", 1⟩, ⟨"orderB", "item1", "Widget", 1⟩]).map
      (fun t => t.id) = ["item1-0", "item1-0"] ∧
    ¬ ((expandAll [⟨"item1", "Widget", some 10, some 5, some 2, ["M"]⟩]
        [⟨"orderA", "item1", "Widget", 1⟩, ⟨"orderB", "item1", "Widget", 1⟩]).map
      (fun t => t.id)).Nodup := by
  with_unfolding_all decide

/-- C9 (amended): each emitted task's id is the order's `itemId`, a dash,
and the unit index — a pure function of the order's item and index, hence
reproducible across identical inputs; ids of tasks from distinct orders of
the same item collide, so identities are only distinct across distinct
items. -/
theorem claim9_task_identity (items : List CatalogItem) (order : Order)
    (itemDetails : CatalogItem) (bt : ℚ)
    (hfind : items.find? (fun i => i.id == order.itemId) = some itemDetails)
    (hbt : itemDetails.buildTime = some bt) (hpos : 0 < bt) :
    (expandOrder items order).map (fun t => t.id) =
      (List.range order.quantity).map (fun i => order.itemId ++ "-" ++ toString i) := by
  simp only [expandOrder, hfind, hbt, if_neg (not_le.mpr hpos), List.map_map]
  rfl

/-- C9 witness: the id formula applied to a concrete order of quantity 2. -/
theorem claim9_witness :
    (expandOrder [⟨"item1", "Widget", some 10, some 5, some 2, ["M"]⟩]
        ⟨"orderA", "item1", "Widget", 2⟩).map (fun t => t.id) =
      (List.range 2).map (fun i => "item1" ++ "-" ++ toString i) :=
  claim9_task_identity [⟨"item1", "Widget", some 10, some 5, some 2, ["M"]⟩]
    ⟨"orderA", "item1", "Widget", 2⟩ ⟨"item1", "Widget", some 10, some 5, some 2, ["M"]⟩
    10 (by with_unfolding_all decide) rfl (by norm_num)

/-- C3 (counterexample): with a supplied negative `workHours` (accepted by
the settings handler, which only rejects `NaN`), the budget is negative and
an idle machine's final `currentTime = 0` exceeds it — the unamended claim
"every machine's final currentTime is at most totalWorkMinutes" fails. -/
theorem claim3_counterexample :
    totalWorkMinutes ⟨some (-1), some 9⟩ = -60 ∧
    (objGet (computeSchedule [] [⟨"i1", "W", some 10, some 1, some 0, ["M"]⟩]
        [⟨"m1", "M"⟩] ⟨some (-1), some 9⟩).schedule "M").map
      (fun tl => tl.currentTime) = some 0 ∧
    ¬ ((0 : ℚ) ≤ totalWorkMinutes ⟨some (-1), some 9⟩) := by
  with_unfolding_all decide

/-- C3 witness: the contiguity law applied to machine "A" of scenario B. -/
theorem claim3_witness :
    chained 0 scenarioBTimelineA.tasks ∧
    scenarioBTimelineA.currentTime = lastEnd 0 scenarioBTimelineA.tasks := by
  have h := claim3_timeline_contiguity scenarioBOrders scenarioBItems scenarioBMachines
    scenarioBSettings ("A", scenarioBTimelineA) (by with_unfolding_all decide)
  exact ⟨h.1, h.2.1⟩

/-- C1 witness: the greedy-selection law applied to the first unit task of
scenario B against the fresh two-machine pool, where `selectBest` returns
machine "A" with finish time 100. -/
theorem claim1_witness :
    (∃ pre post, (scenarioBTask 0).allowedMachines = pre ++ "A" :: post ∧
      (∃ tl, objGet scenarioBInitState.timelines "A" = some tl ∧
        (100 : ℚ) = tl.currentTime + (scenarioBTask 0).buildTime) ∧
      (∀ n ∈ pre, ∀ tl, objGet scenarioBInitState.timelines n = some tl →
        (100 : ℚ) < tl.currentTime + (scenarioBTask 0).buildTime)) ∧
    (∀ n ∈ (scenarioBTask 0).allowedMachines, ∀ tl,
      objGet scenarioBInitState.timelines n = some tl →
      (100 : ℚ) ≤ tl.currentTime + (scenarioBTask 0).buildTime) ∧
    ("A" ≠ "" → (100 : ℚ) ≤ 480 →
      ∃ tl, objGet scenarioBInitState.timelines "A" = some tl ∧
        allocStep 480 scenarioBInitState (scenarioBTask 0) =
          { timelines := objSet scenarioBInitState.timelines "A"
              { tasks := tl.tasks ++
                  [{ task := scenarioBTask 0, startTime := tl.currentTime, endTime := 100 }]
                currentTime := 100 }
            totalProfit := scenarioBInitState.totalProfit + (scenarioBTask 0).profit
            overflowTasks := scenarioBInitState.overflowTasks }) :=
  claim1_greedy_selection 480 scenarioBInitState (scenarioBTask 0) "A" 100
    (by with_unfolding_all decide)

/-- C10: the schedule result has exactly one timeline per distinct machine
name — its keys are the machine names deduplicated by first occurrence,
without repetition — and a pool with duplicate names produces exactly the
same result as the pool keeping only the first machine of each name (the
duplicates are merged into a single timeline with a single cursor and add
no capacity). -/
theorem claim10_duplicate_names (orders : List Order) (items : List CatalogItem)
    (machines : List Machine) (settings : Settings) :
    ((computeSchedule orders items machines settings).schedule.map Prod.fst =
      firstOccur (machines.map (fun m => m.name))) ∧
    ((computeSchedule orders items machines settings).schedule.map Prod.fst).Nodup ∧
    computeSchedule orders items machines settings =
      computeSchedule orders items (dedupByName machines) settings := by
  have hkeys : (computeSchedule orders items machines settings).schedule.map Prod.fst =
      (initTimelines machines).map Prod.fst := by
    unfold computeSchedule runAllocator
    exact foldl_allocStep_keys _ _ _
  refine ⟨?_, ?_, ?_⟩
  · rw [hkeys, initTimelines_keys]
  · rw [hkeys, initTimelines_keys]
    exact (firstOccurAux_nodup _ _).1
  · unfold computeSchedule runAllocator
    rw [initTimelines_dedup]

end LaserApp
